import Mathlib

/-!
Verification development for the Nebula Markdown ↔ NebulaXML editor
(`src/Nebula.tsx`).

Strings are embedded as `List Char` (`Str`), so that every operation of the
source is a plain structurally recursive function that the kernel can
evaluate.  Each definition is a direct translation of the function of the
same name in `src/Nebula.tsx`; DOM values (XML documents, render trees) are
embedded as the node tree `XNode`, and the platform XML parser (`DOMParser`
with type `application/xml`) is embedded as a recursive-descent parser over
the element/attribute/text/entity fragment of XML, which covers every
document the component produces or validates.
-/

abbrev Str := List Char

/-- JavaScript whitespace as used by `trim`/`trimEnd` on the inputs at hand
(space, tab, newline, carriage return). -/
def isJsWs (c : Char) : Bool := c = ' ' || c = '\t' || c = '\n' || c = '\r'

/-- Model of JS `String.prototype.trimStart`. -/
def jsTrimStart (s : Str) : Str := s.dropWhile isJsWs

/-- Model of JS `String.prototype.trimEnd`. -/
def jsTrimEnd (s : Str) : Str := (s.reverse.dropWhile isJsWs).reverse

/-- Model of JS `String.prototype.trim`. -/
def jsTrim (s : Str) : Str := jsTrimEnd (jsTrimStart s)

/-- `strStarts p s` holds when the string `s` starts with `p`
(JS `String.prototype.startsWith`). -/
def strStarts : Str → Str → Bool
  | [], _ => true
  | _ :: _, [] => false
  | p :: ps, c :: cs => p = c && strStarts ps cs

/-- JS `String.prototype.endsWith`. -/
def strEnds (p s : Str) : Bool := strStarts p.reverse s.reverse

/-- First index at which `q` occurs in `s` (JS `indexOf`, `none` for `-1`). -/
def strIndexOf : Str → Str → Option Nat
  | s, q =>
    if strStarts q s then some 0
    else match s with
      | [] => none
      | _ :: rest => (strIndexOf rest q).map (· + 1)

/-- JS `String.prototype.includes`. -/
def strContains (s q : Str) : Bool := (strIndexOf s q).isSome

/-- Split a string at every occurrence of the character `sep`
(JS `String.prototype.split` with a one-character separator). -/
def splitOnChar (sep : Char) : Str → List Str
  | [] => [[]]
  | c :: rest =>
    let r := splitOnChar sep rest
    if c = sep then [] :: r
    else match r with
      | [] => [[c]]
      | l :: ls => (c :: l) :: ls

/-- Join a list of strings with a separator (JS `Array.prototype.join`). -/
def joinWith (sep : Str) : List Str → Str
  | [] => []
  | [l] => l
  | l :: ls => l ++ sep ++ joinWith sep ls

/-- ASCII lower-casing (JS `toLowerCase` restricted to the ASCII inputs the
component handles). -/
def lowerStr (s : Str) : Str := s.map Char.toLower

/-- JS `parseInt(s, 10)`: skip leading whitespace, optional sign, then the
maximal run of decimal digits; `none` models `NaN` (no digits at all). -/
def jsParseInt (s : Str) : Option Int :=
  let t := jsTrimStart s
  let (sign, digits) : Int × Str :=
    match t with
    | '-' :: r => (-1, r)
    | '+' :: r => (1, r)
    | r => (1, r)
  let ds := digits.takeWhile Char.isDigit
  if ds = [] then none
  else some (sign * (ds.foldl (fun acc c => acc * 10 + (c.toNat - '0'.toNat)) (0 : Nat) : Nat))

/-- `clamp(n, 1, 6)` from the source (`Math.max(1, Math.min(6, n))`), lifted
to `Option Int` so that `none` models `NaN` (which both `Math.min` and
`Math.max` propagate). -/
def clampLevel : Option Int → Option Int
  | none => none
  | some n => some (max 1 (min 6 n))

/-- JS `"#".repeat(level)` where `level` is the (possibly-`NaN`) clamped
level: `repeat` converts `NaN` to `0`, producing the empty string. -/
def repeatHash : Option Int → Str
  | none => []
  | some n => List.replicate n.toNat '#'

-- ---------- XML / render-tree node model ----------

/-- A DOM node: either an element with a tag, attributes and children, or a
text node.  This is the shape shared by the XML documents and the sanitized
HTML render trees that `src/Nebula.tsx` walks. -/
inductive XNode where
  | elem (tag : Str) (attrs : List (Str × Str)) (children : List XNode)
  | text (s : Str)

mutual

def eqX : XNode → XNode → Bool
  | .text s, .text t => decide (s = t)
  | .elem t1 a1 c1, .elem t2 a2 c2 => decide (t1 = t2) && decide (a1 = a2) && eqXs c1 c2
  | _, _ => false

def eqXs : List XNode → List XNode → Bool
  | [], [] => true
  | x :: xs, y :: ys => eqX x y && eqXs xs ys
  | _, _ => false

end

namespace XNode

/-- Element children only (JS `Element.children`, as opposed to
`Node.childNodes`). -/
def isElem : XNode → Bool
  | .elem _ _ _ => true
  | .text _ => false

def tagOf : XNode → Str
  | .elem t _ _ => t
  | .text _ => []

def childrenOf : XNode → List XNode
  | .elem _ _ cs => cs
  | .text _ => []

/-- `el.getAttribute(name)` (`none` models `null`). -/
def getAttr (n : XNode) (name : Str) : Option Str :=
  match n with
  | .elem _ attrs _ => (attrs.find? (fun p => p.1 = name)).map Prod.snd
  | .text _ => none

end XNode

mutual

/-- `Node.textContent`: concatenation of all descendant text. -/
def textContentOf : XNode → Str
  | .text s => s
  | .elem _ _ cs => textContentList cs

def textContentList : List XNode → Str
  | [] => []
  | c :: cs => textContentOf c ++ textContentList cs

end

mutual

/-- Depth-first list of the values of all text nodes of a subtree (the order
in which a `TreeWalker` with `SHOW_TEXT` visits them). -/
def textsOf : XNode → List Str
  | .text s => [s]
  | .elem _ _ cs => textsList cs

def textsList : List XNode → List Str
  | [] => []
  | c :: cs => textsOf c ++ textsList cs

end

-- ---------- Platform XML parser model ----------

/-- Characters allowed in an XML element or attribute name (the documents in
scope use only letters and digits). -/
def nameChar (c : Char) : Bool :=
  c.isAlpha || c.isDigit || c = '_' || c = '-' || c = ':' || c = '.'

/-- Decode one XML entity (input positioned just after `&`). -/
def decodeEnt (s : Str) : Option (Char × Str) :=
  if strStarts "amp;".data s then some ('&', s.drop 4)
  else if strStarts "lt;".data s then some ('<', s.drop 3)
  else if strStarts "gt;".data s then some ('>', s.drop 3)
  else if strStarts "quot;".data s then some ('"', s.drop 5)
  else if strStarts "apos;".data s then some ('\'', s.drop 5)
  else none

/-- Parse character data up to the next `<` (or end of input), decoding
entities; a raw `&` that is not a supported entity is a parse error. -/
def pText : Nat → Str → Option (Str × Str)
  | 0, _ => none
  | _, [] => some ([], [])
  | _ + 1, s@('<' :: _) => some ([], s)
  | fuel + 1, '&' :: r =>
    match decodeEnt r with
    | none => none
    | some (c, r2) =>
      match pText fuel r2 with
      | none => none
      | some (t, r3) => some (c :: t, r3)
  | fuel + 1, c :: r =>
    match pText fuel r with
    | none => none
    | some (t, r2) => some (c :: t, r2)

/-- Parse an attribute value up to the closing quote `q`. -/
def pAttrVal (q : Char) : Nat → Str → Option (Str × Str)
  | 0, _ => none
  | _, [] => none
  | fuel + 1, c :: r =>
    if c = q then some ([], r)
    else if c = '<' then none
    else if c = '&' then
      match decodeEnt r with
      | none => none
      | some (e, r2) =>
        match pAttrVal q fuel r2 with
        | none => none
        | some (v, r3) => some (e :: v, r3)
    else
      match pAttrVal q fuel r with
      | none => none
      | some (v, r2) => some (c :: v, r2)

/-- Parse the attribute list of a start tag, stopping before `>` or `/>`. -/
def pAttrs : Nat → Str → Option (List (Str × Str) × Str)
  | 0, _ => none
  | fuel + 1, s =>
    let t := jsTrimStart s
    match t with
    | [] => none
    | '>' :: _ => some ([], t)
    | '/' :: _ => some ([], t)
    | _ =>
      let nm := t.takeWhile nameChar
      if nm = [] then none
      else
        match jsTrimStart (t.drop nm.length) with
        | '=' :: r2 =>
          match jsTrimStart r2 with
          | '"' :: r3 =>
            match pAttrVal '"' (r3.length + 1) r3 with
            | none => none
            | some (v, r4) =>
              match pAttrs fuel r4 with
              | none => none
              | some (rest, r5) => some ((nm, v) :: rest, r5)
          | '\'' :: r3 =>
            match pAttrVal '\'' (r3.length + 1) r3 with
            | none => none
            | some (v, r4) =>
              match pAttrs fuel r4 with
              | none => none
              | some (rest, r5) => some ((nm, v) :: rest, r5)
          | _ => none
        | _ => none

/-- Parse a sequence of sibling nodes, stopping at a closing tag or the end
of input. -/
def pMany : Nat → Str → Option (List XNode × Str)
  | 0, _ => none
  | _ + 1, [] => some ([], [])
  | fuel + 1, s =>
    if strStarts "</".data s then some ([], s)
    else
      match s with
      | '<' :: r0 =>
        let nm := r0.takeWhile nameChar
        if nm = [] then none
        else
          match pAttrs (r0.length + 1) (r0.drop nm.length) with
          | none => none
          | some (attrs, r1) =>
            match r1 with
            | '/' :: '>' :: r2 =>
              match pMany fuel r2 with
              | none => none
              | some (sib, r3) => some (XNode.elem nm attrs [] :: sib, r3)
            | '>' :: r2 =>
              match pMany fuel r2 with
              | none => none
              | some (cs, r3) =>
                if strStarts "</".data r3 then
                  let r4 := r3.drop 2
                  let cnm := r4.takeWhile nameChar
                  if cnm = nm then
                    match jsTrimStart (r4.drop cnm.length) with
                    | '>' :: r5 =>
                      match pMany fuel r5 with
                      | none => none
                      | some (sib, r6) => some (XNode.elem nm attrs cs :: sib, r6)
                    | _ => none
                  else none
                else none
            | _ => none
      | _ =>
        match pText (s.length + 1) s with
        | none => none
        | some (t, r1) =>
          match pMany fuel r1 with
          | none => none
          | some (sib, r2) => some (XNode.text t :: sib, r2)

/-- Model of `new DOMParser().parseFromString(s, "application/xml")` followed
by the `isXmlParseError` check of the source: `none` when the document is not
well formed (the browser would produce a `parsererror` document), otherwise
the single root element.  Restricted to the element/attribute/text/entity
fragment of XML, which covers every document the component produces,
validates or is tested with. -/
def parseXmlDoc (s : Str) : Option XNode :=
  let t := jsTrim s
  match pMany (t.length + 1) t with
  | some ([XNode.elem tg a cs], []) => some (XNode.elem tg a cs)
  | _ => none

mutual

/-- `root.querySelector(tag)`: the first element with the given tag name
among the descendants of the nodes of the list, in document order. -/
def qselList (tag : Str) : List XNode → Option XNode
  | [] => none
  | c :: rest =>
    match qselNode tag c with
    | some r => some r
    | none => qselList tag rest

def qselNode (tag : Str) : XNode → Option XNode
  | .text _ => none
  | .elem t a cs => if t = tag then some (.elem t a cs) else qselList tag cs

end

-- ---------- Markup emitter (`nebulaXmlToMarkdown` in src/Nebula.tsx) ----------

/-- Attribute lookup on a raw attribute list. -/
def attrOf (attrs : List (Str × Str)) (name : Str) : Option Str :=
  (attrs.find? (fun p => decide (p.1 = name))).map Prod.snd

/-- ``inner.replace(/`/g, "\\`")`` of the `code` branch. -/
def escBackticks : Str → Str
  | [] => []
  | c :: r => if c = '`' then '\\' :: '`' :: escBackticks r else c :: escBackticks r

/-- `replace(/\n+$/, "")`: strip every trailing newline. -/
def stripTrailingNl (s : Str) : Str := (s.reverse.dropWhile (· = '\n')).reverse

/-- The per-line blockquote marker: `l.trim() ? "> " + l : ">"`. -/
def quoteLine (l : Str) : Str := if jsTrim l ≠ [] then "> ".data ++ l else ">".data

/-- `t.split("\n").map((l) => "  " + l).join("\n")` of the list branch. -/
def indentTwo (t : Str) : Str :=
  joinWith "\n".data ((splitOnChar '\n' t).map (fun l => "  ".data ++ l))

mutual

/-- `inlineToMd` of `nebulaXmlToMarkdown`. -/
def inlineToMd : XNode → Str
  | .text s => s
  | .elem tag attrs cs =>
    let inner := inlineListToMd cs
    if tag = "bold".data then "**".data ++ inner ++ "**".data
    else if tag = "italic".data then "*".data ++ inner ++ "*".data
    else if tag = "strike".data then "~~".data ++ inner ++ "~~".data
    else if tag = "code".data then '`' :: (escBackticks inner ++ ['`'])
    else if tag = "link".data then
      let href := jsTrim ((attrOf attrs "href".data).getD [])
      if href ≠ [] then
        "[".data ++ (if inner = [] then href else inner) ++ "](".data ++ href ++ ")".data
      else inner
    else if tag = "break".data then "\n".data
    else inner

def inlineListToMd : List XNode → Str
  | [] => []
  | n :: ns => inlineToMd n ++ inlineListToMd ns

end

mutual

/-- `blockToMd` of `nebulaXmlToMarkdown`.  Only ever applied to element
nodes (the source maps it over `Element.children`). -/
def blockToMd : XNode → Str
  | .text _ => []
  | .elem tag attrs cs =>
    if tag = "heading".data then
      let levelStr :=
        match attrOf attrs "level".data with
        | none => "1".data
        | some v => if v = [] then "1".data else v
      repeatHash (clampLevel (jsParseInt levelStr)) ++ " ".data
        ++ jsTrim (inlineListToMd cs) ++ "\n".data
    else if tag = "paragraph".data then jsTrim (inlineListToMd cs) ++ "\n".data
    else if tag = "divider".data then "---\n".data
    else if tag = "codeBlock".data then
      let lang := jsTrim ((attrOf attrs "lang".data).getD [])
      let body := stripTrailingNl (textContentList cs)
      "\n\n```".data ++ lang ++ "\n".data ++ body ++ "\n```\n".data
    else if tag = "blockquote".data then
      let inner := joinWith "\n".data (blockFrags cs)
      joinWith "\n".data ((splitOnChar '\n' inner).map quoteLine) ++ "\n".data
    else if tag = "list".data then
      let ordered := ((attrOf attrs "ordered".data).getD "false".data) = "true".data
      joinWith "\n".data (listItemsMd ordered 1 cs) ++ "\n".data
    else if tag = "table".data then
      let rows := cs.filter (fun c => c.isElem && decide (c.tagOf = "row".data))
      let grid := rows.map (fun r =>
        (r.childrenOf.filter (fun c => c.isElem && decide (c.tagOf = "cell".data))).map
          (fun c => jsTrim (inlineListToMd c.childrenOf)))
      match grid with
      | [] => "\n".data
      | header :: tail =>
        let sep := header.map (fun _ => "---".data)
        let mdRow := fun (r : List Str) => "| ".data ++ joinWith " | ".data r ++ " |".data
        let mdRows := mdRow header :: mdRow sep :: tail.map mdRow
        "\n".data ++ joinWith "\n".data mdRows ++ "\n".data
    else if tag = "image".data then
      let src := (attrOf attrs "src".data).getD []
      let alt := (attrOf attrs "alt".data).getD []
      if src ≠ [] then "![".data ++ alt ++ "](".data ++ src ++ ")\n".data else "\n".data
    else joinWith "\n".data (blockFrags cs) ++ "\n".data

/-- `Array.from(el.children).map(blockToMd)`: block fragments of the element
children of a node list (text children are skipped, as `children` only
contains elements). -/
def blockFrags : List XNode → List Str
  | [] => []
  | .text _ :: rest => blockFrags rest
  | e :: rest => blockToMd e :: blockFrags rest

/-- The `items.map(...)` of the `list` branch: one markup line block per
`<item>` element child, numbering ordered items from 1. -/
def listItemsMd (ordered : Bool) : Nat → List XNode → List Str
  | _, [] => []
  | i, .text _ :: rest => listItemsMd ordered i rest
  | i, .elem t _a ics :: rest =>
    if t = "item".data then
      let frags := blockFrags ics
      let label := jsTrim (frags.headD [])
      let bullet := if ordered then (toString i).data ++ ". ".data else "- ".data
      let restFrags := (frags.tail.map jsTrim).filter (· ≠ [])
      let restStr := joinWith "\n".data (restFrags.map indentTwo)
      (bullet ++ label ++ (if restStr = [] then [] else '\n' :: restStr))
        :: listItemsMd ordered (if ordered then i + 1 else i) rest
    else listItemsMd ordered i rest

end

/-- The result record of `nebulaXmlToMarkdown`:
`{ markdown: string; error: string | null }`. -/
structure MdResult where
  markdown : Str
  error : Option Str
deriving DecidableEq

/-- `nebulaXmlToMarkdown` of `src/Nebula.tsx`: validate the XML text (well
formed, `<nebula>` root, `document` descendant via `querySelector`) and emit
authoring markdown from the `document` node's element children. -/
def nebulaXmlToMarkdown (s : Str) : MdResult :=
  match parseXmlDoc s with
  | none => ⟨[], some "XML parse error".data⟩
  | some root =>
    if root.tagOf ≠ "nebula".data then ⟨[], some "Root element must be <nebula>".data⟩
    else
      match qselList "document".data root.childrenOf with
      | none => ⟨[], some "Missing <document>".data⟩
      | some docNode =>
        let blocks := (docNode.childrenOf.filter XNode.isElem).map
          (fun c => jsTrimEnd (blockToMd c))
        ⟨jsTrim (joinWith "\n\n".data blocks) ++ "\n".data, none⟩

-- ---------- `xmlPretty` (pure string pretty-printer) ----------

/-- The global regex replace `xml.replace(/(>)(<)(\/*)/g, "$1\n$2$3")`:
insert a newline between every `><` pair. -/
def insertBreaks : Str → Str
  | '>' :: '<' :: rest => '>' :: '\n' :: '<' :: insertBreaks rest
  | c :: rest => c :: insertBreaks rest
  | [] => []

/-- `node.match(/^<\//)`. -/
def lineIsCloser (l : Str) : Bool := strStarts "</".data l

/-- The `[^>]*[^/]>` scan of `/^<[^!?][^>]*[^/]>.*$/`: some split of the
input as `mid ++ d :: '>' :: anything` with no `>` in `mid` and `d ≠ '/'`. -/
def openScanA : Str → Bool
  | x :: y :: rest =>
    (decide (x ≠ '/') && decide (y = '>')) || (decide (x ≠ '>') && openScanA (y :: rest))
  | _ => false

/-- `node.match(/^<[^!?][^>]*[^/]>.*$/)`. -/
def lineMatchesA : Str → Bool
  | '<' :: c :: rest => decide (c ≠ '!') && decide (c ≠ '?') && openScanA rest
  | _ => false

/-- The `[^>]*>` tail of `/^<[^!?][^>]*>$/`: the rest of the line is
`mid ++ ['>']` with no `>` in `mid`. -/
def bTail : Str → Bool
  | [] => false
  | ['>'] => true
  | [_] => false
  | x :: y :: rest => decide (x ≠ '>') && bTail (y :: rest)

/-- `node.match(/^<[^!?][^>]*>$/)`. -/
def lineMatchesB : Str → Bool
  | '<' :: c :: rest => decide (c ≠ '!') && decide (c ≠ '?') && bTail rest
  | _ => false

/-- `PADDING.repeat(pad)` with `PADDING = "  "`. -/
def padding (pad : Nat) : Str := List.replicate (2 * pad) ' '

/-- The `forEach` loop of `xmlPretty`: classify each (raw, unstripped) line,
adjust the indentation level, and emit the trimmed line behind the current
padding. -/
def prettyLines : List Str → Nat → Str
  | [], _ => []
  | l :: ls, pad =>
    if jsTrim l = [] then prettyLines ls pad
    else if lineIsCloser l then
      let pad2 := pad - 1
      padding pad2 ++ jsTrim l ++ '\n' :: prettyLines ls pad2
    else if lineMatchesA l && !(strContains l "</".data) then
      padding pad ++ jsTrim l ++ '\n' :: prettyLines ls (pad + 1)
    else if lineMatchesB l && !(strEnds "/>".data l) && !(lineIsCloser l) then
      padding pad ++ jsTrim l ++ '\n' :: prettyLines ls (pad + 1)
    else padding pad ++ jsTrim l ++ '\n' :: prettyLines ls pad

/-- `xmlPretty` of `src/Nebula.tsx`. -/
def xmlPretty (s : Str) : Str :=
  jsTrim (prettyLines (splitOnChar '\n' (insertBreaks s)) 0)

-- ---------- Editor state transitions ----------

/-- The slice of the component state the conversion claims are about. -/
structure EditorState where
  markdown : Str
  xml : Str
  xmlError : Option Str
  dirty : Bool
deriving DecidableEq

/-- The `onChange` handler of the NebulaXML Monaco editor: display the typed
text, then parse it; on error only record the error, on success adopt the
regenerated markdown. -/
def onXmlEditorChange (st : EditorState) (val : Str) : EditorState :=
  let r := nebulaXmlToMarkdown val
  match r.error with
  | some e => { st with xml := val, xmlError := some e }
  | none => { st with xml := val, xmlError := none, markdown := r.markdown, dirty := true }

/-- `importFile` of `src/Nebula.tsx` (state effect of importing a text file
with the given name and contents). -/
def importFileModel (st : EditorState) (fileName text : Str) : EditorState :=
  let name := lowerStr fileName
  if strEnds ".xml".data name || strContains name "nebula".data then
    let r := nebulaXmlToMarkdown text
    match r.error with
    | some e => { st with xmlError := some e, xml := xmlPretty text }
    | none => { st with markdown := r.markdown, dirty := true }
  else { st with markdown := text, dirty := true }

-- ---------- Highlight annotator (`applyHighlightsToHtml`) ----------

/-- `{ id, quote, note, ts }` of the comment model. -/
structure NebulaComment where
  id : Str
  quote : Str
  note : Str
  ts : Str
deriving DecidableEq

/-- The class string the annotator puts on every marker span. -/
def highlightClass : Str :=
  ("rounded px-1 bg-amber-200/50 dark:bg-amber-400/20 border "
    ++ "border-amber-300/40 dark:border-amber-400/30").data

/-- The marker span built by `wrapMatchInTextNode`. -/
def mkMarkerSpan (cid content : Str) : XNode :=
  .elem "span".data
    [("data-nebula-comment".data, cid), ("class".data, highlightClass)]
    [.text content]

mutual

/-- The `visitTextNodes`/`done`-flag walk of one comment over a single node:
a text node containing the quote (when the walk is not `done` yet) is split
into before/match/after (empty pieces dropped, exactly as
`wrapMatchInTextNode` only appends nonempty `before`/`after` text nodes);
the result list is what replaces the node among its siblings. -/
def wrapNode (q : Str) (c : NebulaComment) : XNode → Bool → (List XNode × Bool)
  | .text s, done =>
    if done then ([.text s], true)
    else
      match strIndexOf s q with
      | some idx =>
        let before := s.take idx
        let matched := (s.drop idx).take q.length
        let after := s.drop (idx + q.length)
        ((if before ≠ [] then [XNode.text before] else [])
          ++ [mkMarkerSpan c.id matched]
          ++ (if after ≠ [] then [XNode.text after] else []), true)
      | none => ([.text s], false)
  | .elem t a cs, done =>
    let (cs2, d) := wrapChildren q c cs done
    ([.elem t a cs2], d)

/-- The walk of `wrapNode` over a sibling list, threading the `done` flag in
depth-first text-node order. -/
def wrapChildren (q : Str) (c : NebulaComment) : List XNode → Bool → (List XNode × Bool)
  | [], done => ([], done)
  | n :: rest, done =>
    let (ns, d1) := wrapNode q c n done
    let (r, d2) := wrapChildren q c rest d1
    (ns ++ r, d2)

end

/-- One iteration of the `for (const c of comments)` loop of
`applyHighlightsToHtml` on the parsed render tree: trim the quote, skip it
when empty, otherwise wrap the first match. -/
def applyOneComment (root : XNode) (c : NebulaComment) : XNode :=
  let q := jsTrim c.quote
  if q = [] then root
  else
    match root with
    | .elem t a cs => .elem t a (wrapChildren q c cs false).1
    | .text s => .text s

/-- `applyHighlightsToHtml` at the tree level: fold the comment list, in
input order, over the render tree. -/
def applyHighlights (root : XNode) (comments : List NebulaComment) : XNode :=
  comments.foldl applyOneComment root

-- ---------- Find/replace (`runFindReplace`, mode `"replaceAll"`) ----------

/-- Case comparison of the search: the constructed regex carries the `i`
flag unless the case-sensitivity toggle is on (ASCII folding). -/
def matchesAt (cs : Bool) (term s : Str) : Bool :=
  if cs then strStarts term s else strStarts (lowerStr term) (lowerStr s)

/-- ECMA-262 `GetSubstitution` for a pattern with no capture groups:
`$$` → `$`, `$&` → the match, ``$` `` → the text before the match,
`$'` → the text after it; any other `$` sequence is literal. -/
def expandDollar (m pre post : Str) : Str → Str
  | [] => []
  | ['$'] => ['$']
  | '$' :: c2 :: r2 =>
    if c2 = '$' then '$' :: expandDollar m pre post r2
    else if c2 = '&' then m ++ expandDollar m pre post r2
    else if c2 = '`' then pre ++ expandDollar m pre post r2
    else if c2 = '\'' then post ++ expandDollar m pre post r2
    else '$' :: expandDollar m pre post (c2 :: r2)
  | c :: r => c :: expandDollar m pre post r

/-- The scan of `String.prototype.replace` with a global regex that matches
exactly the literal `term` (the source escapes every regex metacharacter in
the find term): replace each leftmost non-overlapping occurrence, expanding
`$` patterns in the replacement. -/
def replGo (term repl : Str) (cs : Bool) (orig : Str) : Nat → Nat → Str
  | 0, _ => []
  | fuel + 1, n =>
    match orig.drop n with
    | [] => []
    | c :: _ =>
      if term ≠ [] && matchesAt cs term (orig.drop n) then
        expandDollar ((orig.drop n).take term.length) (orig.take n)
            (orig.drop (n + term.length)) repl
          ++ replGo term repl cs orig fuel (n + term.length)
      else c :: replGo term repl cs orig fuel (n + 1)

/-- `markdown.replace(re, replaceTerm)` with
`re = new RegExp(escapedTerm, caseSensitive ? "g" : "gi")`. -/
def jsReplaceAll (hay term repl : Str) (cs : Bool) : Str :=
  replGo term repl cs hay (hay.length + 1) 0

/-- The same scan, but inserting the replacement text verbatim (the
behaviour of a replacement treated as a literal string). -/
def litGo (term repl : Str) (cs : Bool) (orig : Str) : Nat → Nat → Str
  | 0, _ => []
  | fuel + 1, n =>
    match orig.drop n with
    | [] => []
    | c :: _ =>
      if term ≠ [] && matchesAt cs term (orig.drop n) then
        repl ++ litGo term repl cs orig fuel (n + term.length)
      else c :: litGo term repl cs orig fuel (n + 1)

/-- Replace every (case-folded unless `cs`) occurrence of the literal `term`
by the literal string `repl`. -/
def literalReplaceAll (hay term repl : Str) (cs : Bool) : Str :=
  litGo term repl cs hay (hay.length + 1) 0

/-- `runFindReplace("replaceAll")` as a function of the markdown text: a
no-op for the empty find term (`if (!term) return`), otherwise one global
replace over the whole text. -/
def runReplaceAll (md term repl : Str) (cs : Bool) : Str :=
  if term = [] then md else jsReplaceAll md term repl cs

-- ---------- Observers used by the statements ----------

/-- The element children of the `document` node of a canonical text that
passes all three validation steps: the top-level blocks the emitter walks. -/
def docBlocksOf (s : Str) : Option (List XNode) :=
  match parseXmlDoc s with
  | none => none
  | some root =>
    if root.tagOf ≠ "nebula".data then none
    else
      match qselList "document".data root.childrenOf with
      | none => none
      | some d => some (d.childrenOf.filter XNode.isElem)

/-- `[s]` when `s` is nonempty, else `[]` (the shape of the optional
before/after text nodes around a wrapped match). -/
def optStr (s : Str) : List Str := if s = [] then [] else [s]

mutual

/-- Number of marker spans in a subtree carrying the comment id `cid`
(elements `span` whose `data-nebula-comment` attribute equals `cid`). -/
def markerIdCountOf (cid : Str) : XNode → Nat
  | .text _ => 0
  | .elem t a cs =>
    (if t = "span".data ∧ attrOf a "data-nebula-comment".data = some cid
        then 1 else 0)
      + markerIdCountList cid cs

def markerIdCountList (cid : Str) : List XNode → Nat
  | [] => 0
  | c :: cs => markerIdCountOf cid c + markerIdCountList cid cs

end

mutual

/-- `hasSubNode x n`: the tree `n` has `x` as a subtree (itself included). -/
def hasSubNode (x : XNode) : XNode → Bool
  | .text s => eqX (.text s) x
  | .elem t a cs => eqX (.elem t a cs) x || hasSubList x cs

def hasSubList (x : XNode) : List XNode → Bool
  | [] => false
  | n :: ns => hasSubNode x n || hasSubList x ns

end

mutual

/-- Number of marker spans (elements carrying a `data-nebula-comment`
attribute) in a subtree, regardless of id. -/
def markerCountOf : XNode → Nat
  | .text _ => 0
  | .elem _ a cs =>
    (if (attrOf a "data-nebula-comment".data).isSome then 1 else 0) + markerCountList cs

def markerCountList : List XNode → Nat
  | [] => 0
  | c :: cs => markerCountOf c + markerCountList cs

end

-- ---------- Decidable equality of node trees ----------

mutual

theorem eqX_refl : ∀ a, eqX a a = true
  | .text s => by simp [eqX]
  | .elem t a c => by simp [eqX, eqXs_refl c]

theorem eqXs_refl : ∀ as_, eqXs as_ as_ = true
  | [] => rfl
  | x :: xs => by simp [eqXs, eqX_refl x, eqXs_refl xs]

end

mutual

theorem eqX_sound : ∀ a b, eqX a b = true → a = b
  | .text s, .text t => by simp [eqX]
  | .text _, .elem _ _ _ => by simp [eqX]
  | .elem _ _ _, .text _ => by simp [eqX]
  | .elem t1 a1 c1, .elem t2 a2 c2 => by
      simp only [eqX, Bool.and_eq_true, decide_eq_true_eq]
      rintro ⟨⟨rfl, rfl⟩, h⟩
      exact congrArg (XNode.elem t1 a1) (eqXs_sound c1 c2 h)

theorem eqXs_sound : ∀ as_ bs, eqXs as_ bs = true → as_ = bs
  | [], [] => fun _ => rfl
  | [], _ :: _ => by simp [eqXs]
  | _ :: _, [] => by simp [eqXs]
  | x :: xs, y :: ys => by
      simp only [eqXs, Bool.and_eq_true]
      rintro ⟨h1, h2⟩
      rw [eqX_sound x y h1, eqXs_sound xs ys h2]

end

instance : DecidableEq XNode := fun a b =>
  decidable_of_iff (eqX a b = true)
    ⟨eqX_sound a b, fun h => h ▸ eqX_refl a⟩


-- ---------- Support lemmas ----------

theorem expandDollar_no_dollar (m pre post : Str) :
    ∀ r : Str, '$' ∉ r → expandDollar m pre post r = r := by
  intro r
  induction r with
  | nil => intro _; rfl
  | cons c r ih =>
    intro h
    have hr : '$' ∉ r := fun e => h (List.mem_cons_of_mem c e)
    rw [expandDollar.eq_def]
    split
    · rename_i heq; exact absurd heq (by simp)
    · rename_i heq; injection heq with h1 h2; subst h1; simp at h
    · rename_i heq; injection heq with h1 h2; subst h1; simp at h
    · rename_i heq; injection heq with h1 h2; subst h1; subst h2; rw [ih hr]

theorem replGo_eq_litGo (term repl : Str) (cs : Bool) (orig : Str)
    (hd : '$' ∉ repl) :
    ∀ fuel n, replGo term repl cs orig fuel n = litGo term repl cs orig fuel n := by
  intro fuel
  induction fuel with
  | zero => intro n; rfl
  | succ f ih =>
    intro n
    rw [replGo, litGo]
    cases hdrop : orig.drop n with
    | nil => rfl
    | cons c rest =>
      by_cases hm : (term ≠ [] && matchesAt cs term (orig.drop n)) = true
      · simp only [hdrop] at hm ⊢
        rw [if_pos hm, if_pos hm, expandDollar_no_dollar _ _ _ _ hd, ih]
      · simp only [hdrop] at hm ⊢
        rw [if_neg hm, if_neg hm, ih]


theorem textsList_append : ∀ l1 l2 : List XNode,
    textsList (l1 ++ l2) = textsList l1 ++ textsList l2 := by
  intro l1 l2
  induction l1 with
  | nil => rfl
  | cons n ns ih => simp [textsList, ih]

theorem textContentList_append : ∀ l1 l2 : List XNode,
    textContentList (l1 ++ l2) = textContentList l1 ++ textContentList l2 := by
  intro l1 l2
  induction l1 with
  | nil => rfl
  | cons n ns ih => simp [textContentList, ih]

theorem markerIdCountList_append (cid : Str) : ∀ l1 l2 : List XNode,
    markerIdCountList cid (l1 ++ l2)
      = markerIdCountList cid l1 + markerIdCountList cid l2 := by
  intro l1 l2
  induction l1 with
  | nil => simp [markerIdCountList]
  | cons n ns ih => simp [markerIdCountList, ih]; omega

theorem hasSubList_append (x : XNode) : ∀ l1 l2 : List XNode,
    hasSubList x (l1 ++ l2) = (hasSubList x l1 || hasSubList x l2) := by
  intro l1 l2
  induction l1 with
  | nil => simp [hasSubList]
  | cons n ns ih => simp [hasSubList, ih, Bool.or_assoc]

theorem strStarts_append : ∀ p s : Str, strStarts p s = true ↔ ∃ t, s = p ++ t := by
  intro p
  induction p with
  | nil => intro s; simp [strStarts]
  | cons a p ih =>
    intro s
    cases s with
    | nil => simp [strStarts]
    | cons b t =>
      simp only [strStarts, Bool.and_eq_true, decide_eq_true_eq, ih]
      constructor
      · rintro ⟨rfl, u, rfl⟩; exact ⟨u, rfl⟩
      · rintro ⟨u, h⟩
        injection h with h1 h2
        exact ⟨h1.symm, u, h2⟩

theorem strStarts_take {p s : Str} (h : strStarts p s = true) :
    s.take p.length = p := by
  obtain ⟨t, rfl⟩ := (strStarts_append p s).1 h
  simp

theorem strIndexOf_some {s q : Str} {idx : Nat} (h : strIndexOf s q = some idx) :
    strStarts q (s.drop idx) = true ∧ ∀ j < idx, strStarts q (s.drop j) = false := by
  induction s generalizing idx with
  | nil =>
    rw [strIndexOf] at h
    by_cases hs : strStarts q [] = true
    · rw [if_pos hs] at h
      injection h with h'
      subst h'
      exact ⟨hs, fun j hj => absurd hj (by omega)⟩
    · rw [if_neg hs] at h
      exact absurd h (by simp)
  | cons c rest ih =>
    rw [strIndexOf] at h
    by_cases hs : strStarts q (c :: rest) = true
    · rw [if_pos hs] at h
      injection h with h'
      subst h'
      exact ⟨hs, fun j hj => absurd hj (by omega)⟩
    · rw [if_neg hs] at h
      simp only [Option.map_eq_some'] at h
      obtain ⟨i0, hi0, rfl⟩ := h
      obtain ⟨h1, h2⟩ := ih hi0
      refine ⟨h1, ?_⟩
      intro j hj
      cases j with
      | zero => simpa using (by simpa using hs : strStarts q (c :: rest) = false)
      | succ j' => exact h2 j' (by omega)

theorem strContains_false_iff {s q : Str} :
    strContains s q = false ↔ strIndexOf s q = none := by
  rw [strContains]
  cases strIndexOf s q <;> simp

mutual

theorem wrapNode_done (q : Str) (c : NebulaComment) :
    ∀ n : XNode, wrapNode q c n true = ([n], true)
  | .text s => by simp [wrapNode]
  | .elem t a cs => by simp [wrapNode, wrapChildren_done q c cs]

theorem wrapChildren_done (q : Str) (c : NebulaComment) :
    ∀ cs : List XNode, wrapChildren q c cs true = (cs, true)
  | [] => rfl
  | n :: rest => by
    simp [wrapChildren, wrapNode_done q c n, wrapChildren_done q c rest]

end

mutual

theorem wrapNode_notfound (q : Str) (c : NebulaComment) :
    ∀ n : XNode, (∀ s ∈ textsOf n, strIndexOf s q = none) →
      wrapNode q c n false = ([n], false)
  | .text s => by
    intro h
    have hs : strIndexOf s q = none := h s (by simp [textsOf])
    simp [wrapNode, hs]
  | .elem t a cs => by
    intro h
    have hc := wrapChildren_notfound q c cs (by simpa [textsOf] using h)
    simp [wrapNode, hc]

theorem wrapChildren_notfound (q : Str) (c : NebulaComment) :
    ∀ cs : List XNode, (∀ s ∈ textsList cs, strIndexOf s q = none) →
      wrapChildren q c cs false = (cs, false)
  | [] => fun _ => rfl
  | n :: rest => by
    intro h
    have h1 := wrapNode_notfound q c n
      (fun s hs => h s (by simp [textsList, textsList_append, hs]))
    have h2 := wrapChildren_notfound q c rest
      (fun s hs => h s (by simp [textsList, textsList_append, hs]))
    simp [wrapChildren, h1, h2]

end

theorem markerIdCountOf_span (cid x : Str) :
    markerIdCountOf cid (mkMarkerSpan cid x) = 1 := by
  simp [markerIdCountOf, markerIdCountList, mkMarkerSpan, attrOf, List.find?]

theorem hasSubNode_span_self (cid x : Str) :
    hasSubNode (mkMarkerSpan cid x) (mkMarkerSpan cid x) = true := by
  rw [mkMarkerSpan, hasSubNode]
  simp [eqX_refl]

theorem split3_eq (s : Str) (idx L : Nat) :
    s.take idx ++ ((s.drop idx).take L ++ s.drop (idx + L)) = s := by
  have h1 : s.drop (idx + L) = (s.drop idx).drop L := by
    rw [List.drop_drop, Nat.add_comm]
  rw [h1, List.take_append_drop, List.take_append_drop]

mutual

theorem wrapNode_found (q : Str) (c : NebulaComment) :
    ∀ (n : XNode) (pre : List Str) (s0 : Str) (post : List Str) (idx : Nat),
      textsOf n = pre ++ s0 :: post →
      (∀ s ∈ pre, strIndexOf s q = none) →
      strIndexOf s0 q = some idx →
      (wrapNode q c n false).2 = true
      ∧ textsList (wrapNode q c n false).1
          = pre ++ (optStr (s0.take idx) ++ [(s0.drop idx).take q.length]
            ++ optStr (s0.drop (idx + q.length))) ++ post
      ∧ textContentList (wrapNode q c n false).1 = textContentOf n
      ∧ markerIdCountList c.id (wrapNode q c n false).1 = markerIdCountOf c.id n + 1
      ∧ hasSubList (mkMarkerSpan c.id ((s0.drop idx).take q.length))
          (wrapNode q c n false).1 = true
  | .text s, pre, s0, post, idx => by
    intro hts hpre hidx
    have hps : pre = [] ∧ s0 = s ∧ post = [] := by
      cases pre with
      | nil =>
        rw [textsOf] at hts
        injection hts.symm with h1 h2
        exact ⟨rfl, h1, h2⟩
      | cons p pre2 =>
        rw [textsOf, List.cons_append] at hts
        injection hts.symm with h1 h2
        exact absurd h2 (by simp)
    obtain ⟨rfl, hs0, rfl⟩ := hps
    rw [hs0] at hidx ⊢
    rw [wrapNode, hidx]
    dsimp only
    have hsplit := split3_eq s idx q.length
    refine ⟨rfl, ?_, ?_, ?_, ?_⟩
    · rcases eq_or_ne (s.take idx) [] with hb | hb <;>
        rcases eq_or_ne (s.drop (idx + q.length)) [] with ha | ha <;>
        simp [optStr, hb, ha, textsList, textsList_append, textsOf, mkMarkerSpan]
    · rcases eq_or_ne (s.take idx) [] with hb | hb <;>
        rcases eq_or_ne (s.drop (idx + q.length)) [] with ha | ha <;>
        (simp only [hb, ha] at hsplit ⊢; conv_rhs => rw [← hsplit]) <;>
        simp [optStr, hb, ha, textContentList, textContentList_append,
          textContentOf, mkMarkerSpan]
    · rcases eq_or_ne (s.take idx) [] with hb | hb <;>
        rcases eq_or_ne (s.drop (idx + q.length)) [] with ha | ha <;>
        simp [optStr, hb, ha, markerIdCountList_append, markerIdCountList,
          markerIdCountOf, mkMarkerSpan, attrOf, List.find?]
    · rcases eq_or_ne (s.take idx) [] with hb | hb <;>
        rcases eq_or_ne (s.drop (idx + q.length)) [] with ha | ha <;>
        simp [optStr, hb, ha, hasSubList_append, hasSubList, hasSubNode,
          mkMarkerSpan, eqX_refl]
  | .elem t a cs, pre, s0, post, idx => by
    intro hts hpre hidx
    have hts2 : textsList cs = pre ++ s0 :: post := by
      rw [textsOf] at hts; exact hts
    obtain ⟨hf, htx, htc, hmc, hsub⟩ :=
      wrapChildren_found q c cs pre s0 post idx hts2 hpre hidx
    rcases hww : wrapChildren q c cs false with ⟨cs2, d⟩
    rw [hww] at hf htx htc hmc hsub
    simp only at hf htx htc hmc hsub
    subst hf
    rw [wrapNode, hww]
    dsimp only
    simp only [textsList, textsList_append, List.append_nil, textsOf,
      textContentList, textContentList_append, textContentOf,
      markerIdCountList, markerIdCountList_append, markerIdCountOf,
      hasSubList, hasSubNode]
    refine ⟨trivial, ?_, ?_, by omega, by simp [hsub]⟩
    · simpa using htx
    · simpa using htc

theorem wrapChildren_found (q : Str) (c : NebulaComment) :
    ∀ (cs : List XNode) (pre : List Str) (s0 : Str) (post : List Str) (idx : Nat),
      textsList cs = pre ++ s0 :: post →
      (∀ s ∈ pre, strIndexOf s q = none) →
      strIndexOf s0 q = some idx →
      (wrapChildren q c cs false).2 = true
      ∧ textsList (wrapChildren q c cs false).1
          = pre ++ (optStr (s0.take idx) ++ [(s0.drop idx).take q.length]
            ++ optStr (s0.drop (idx + q.length))) ++ post
      ∧ textContentList (wrapChildren q c cs false).1 = textContentList cs
      ∧ markerIdCountList c.id (wrapChildren q c cs false).1
          = markerIdCountList c.id cs + 1
      ∧ hasSubList (mkMarkerSpan c.id ((s0.drop idx).take q.length))
          (wrapChildren q c cs false).1 = true
  | [], pre, s0, post, idx => by
    intro hts _ _
    rw [textsList] at hts
    exact absurd hts.symm (by simp)
  | n :: rest, pre, s0, post, idx => by
    intro hts hpre hidx
    rw [textsList] at hts
    rcases List.append_eq_append_iff.1 hts with ⟨a2, ha1, ha2⟩ | ⟨c2, hc1, hc2⟩
    · -- the match is inside `rest`; all of `textsOf n` sits inside `pre`
      have hn : ∀ s ∈ textsOf n, strIndexOf s q = none := fun s hs =>
        hpre s (ha1 ▸ List.mem_append_left a2 hs)
      have ha3 : ∀ s ∈ a2, strIndexOf s q = none := fun s hs =>
        hpre s (ha1 ▸ List.mem_append_right (textsOf n) hs)
      have hnf := wrapNode_notfound q c n hn
      obtain ⟨hf, htx, htc, hmc, hsub⟩ :=
        wrapChildren_found q c rest a2 s0 post idx ha2 ha3 hidx
      rcases hww : wrapChildren q c rest false with ⟨r2, d2⟩
      rw [hww] at hf htx htc hmc hsub
      simp only at hf htx htc hmc hsub
      subst hf
      rw [wrapChildren, hnf]
      dsimp only
      rw [hww]
      dsimp only
      simp only [textsList, textsList_append, textContentList, textContentList_append,
        markerIdCountList, markerIdCountList_append, hasSubList, hasSubList_append,
        List.singleton_append, List.append_eq, List.nil_append]
      refine ⟨trivial, ?_, by simp [htc], by omega, by simp [hsub]⟩
      rw [htx, ha1]
      simp [List.append_assoc]
    · cases c2 with
      | nil =>
        -- `textsOf n` is exactly `pre`; the match is inside `rest`
        rw [List.append_nil] at hc1
        rw [List.nil_append] at hc2
        have hn : ∀ s ∈ textsOf n, strIndexOf s q = none := fun s hs =>
          hpre s (hc1 ▸ hs)
        have hnf := wrapNode_notfound q c n hn
        obtain ⟨hf, htx, htc, hmc, hsub⟩ :=
          wrapChildren_found q c rest [] s0 post idx hc2.symm (by simp) hidx
        rcases hww : wrapChildren q c rest false with ⟨r2, d2⟩
        rw [hww] at hf htx htc hmc hsub
        simp only at hf htx htc hmc hsub
        subst hf
        rw [wrapChildren, hnf]
        dsimp only
        rw [hww]
        dsimp only
        simp only [textsList, textsList_append, textContentList, textContentList_append,
          markerIdCountList, markerIdCountList_append, hasSubList, hasSubList_append,
          List.singleton_append, List.append_eq, List.nil_append]
        refine ⟨trivial, ?_, by simp [htc], by omega, by simp [hsub]⟩
        rw [htx, hc1]
        simp [List.append_assoc]
      | cons s2 c3 =>
        -- the match is inside `textsOf n`
        injection hc2 with he1 he2
        subst he1
        obtain ⟨hf, htx, htc, hmc, hsub⟩ :=
          wrapNode_found q c n pre s0 c3 idx hc1 hpre hidx
        rcases hww : wrapNode q c n false with ⟨ns, d1⟩
        rw [hww] at hf htx htc hmc hsub
        simp only at hf htx htc hmc hsub
        subst hf
        rw [wrapChildren, hww]
        dsimp only
        rw [wrapChildren_done q c rest]
        dsimp only
        simp only [textsList, textsList_append, textContentList, textContentList_append,
          markerIdCountList, markerIdCountList_append, hasSubList, hasSubList_append]
        refine ⟨trivial, ?_, by simp [htc], by omega, by simp [hsub]⟩
        rw [htx, he2]
        simp [List.append_assoc]

end

theorem markerCountList_append : ∀ l1 l2 : List XNode,
    markerCountList (l1 ++ l2) = markerCountList l1 + markerCountList l2 := by
  intro l1 l2
  induction l1 with
  | nil => simp [markerCountList]
  | cons n ns ih => simp [markerCountList, ih]; omega

mutual

theorem wrapNode_markerCount (q : Str) (c : NebulaComment) :
    ∀ (n : XNode) (d : Bool),
      markerCountList (wrapNode q c n d).1 + (if d then 1 else 0)
        ≤ markerCountOf n + (if (wrapNode q c n d).2 then 1 else 0)
  | .text s, d => by
    cases d with
    | true => simp [wrapNode, markerCountList, markerCountOf]
    | false =>
      rcases h : strIndexOf s q with _ | i <;>
        simp only [wrapNode, h]
      · simp [markerCountList, markerCountOf]
      · rcases eq_or_ne (s.take i) [] with hb | hb <;>
          rcases eq_or_ne (s.drop (i + q.length)) [] with ha | ha <;>
          simp [hb, ha, markerCountList_append, markerCountList, markerCountOf,
            mkMarkerSpan, attrOf, List.find?]
  | .elem t a cs, d => by
    have h := wrapChildren_markerCount q c cs d
    rcases hw : wrapChildren q c cs d with ⟨cs2, d2⟩
    rw [hw] at h
    simp only at h
    rw [wrapNode, hw]
    dsimp only
    simp only [markerCountList, markerCountOf]
    cases d <;> cases d2 <;> simp_all <;> omega

theorem wrapChildren_markerCount (q : Str) (c : NebulaComment) :
    ∀ (cs : List XNode) (d : Bool),
      markerCountList (wrapChildren q c cs d).1 + (if d then 1 else 0)
        ≤ markerCountList cs + (if (wrapChildren q c cs d).2 then 1 else 0)
  | [], d => by simp [wrapChildren]
  | n :: rest, d => by
    have h1 := wrapNode_markerCount q c n d
    rcases hA : wrapNode q c n d with ⟨ns, d1⟩
    rw [hA] at h1
    simp only at h1
    have h2 := wrapChildren_markerCount q c rest d1
    rcases hB : wrapChildren q c rest d1 with ⟨r, d2⟩
    rw [hB] at h2
    simp only at h2
    rw [wrapChildren, hA]
    dsimp only
    rw [hB]
    dsimp only
    simp only [markerCountList_append, markerCountList]
    cases d <;> cases d1 <;> cases d2 <;> simp_all <;> omega

end


theorem head_dropWhile_not (p : Char → Bool) :
    ∀ (l : Str) (c : Char), (l.dropWhile p).head? = some c → p c = false := by
  intro l
  induction l with
  | nil => intro c h; exact absurd h (by simp)
  | cons a l ih =>
    intro c h
    by_cases hp : p a = true
    · rw [List.dropWhile_cons_of_pos hp] at h
      exact ih c h
    · rw [List.dropWhile_cons_of_neg hp] at h
      injection h with h1
      subst h1
      simpa using hp

theorem jsTrimEnd_head (t : Str) (c : Char) :
    (jsTrimEnd t).head? = some c → t.head? = some c := by
  intro h
  have hsplit : jsTrimEnd t ++ (t.reverse.takeWhile isJsWs).reverse = t := by
    rw [jsTrimEnd, ← List.reverse_append, List.takeWhile_append_dropWhile,
      List.reverse_reverse]
  cases he : jsTrimEnd t with
  | nil => rw [he] at h; exact absurd h (by simp)
  | cons a r =>
    rw [he] at h
    injection h with h1
    subst h1
    rw [← hsplit, he]
    rfl

theorem jsTrim_head_not_ws (s : Str) (c : Char) :
    (jsTrim s).head? = some c → isJsWs c = false := by
  intro h
  have h2 := jsTrimEnd_head (jsTrimStart s) c h
  cases ht : jsTrimStart s with
  | nil => rw [ht] at h2; exact absurd h2 (by simp)
  | cons a r =>
    rw [ht] at h2
    have : (jsTrimStart s).head? = some c := by rw [ht]; exact h2
    exact head_dropWhile_not isJsWs s c this

theorem jsTrim_getLast_not_ws (s : Str) (c : Char) :
    (jsTrim s).getLast? = some c → isJsWs c = false := by
  intro h
  rw [jsTrim, jsTrimEnd, List.getLast?_reverse] at h
  exact head_dropWhile_not isJsWs (jsTrimStart s).reverse c h

theorem repeatHash_clamp_shape (x : Option Int) :
    repeatHash (clampLevel x) = [] ∨ ∃ r, repeatHash (clampLevel x) = '#' :: r := by
  cases x with
  | none => left; rfl
  | some n =>
    right
    have h1 : (1 : Int) ≤ max 1 (min 6 n) := le_max_left 1 _
    have h2 : ∃ k, (max 1 (min 6 n)).toNat = k + 1 := by
      have := Int.toNat_of_nonneg (by omega : (0:Int) ≤ max 1 (min 6 n))
      refine ⟨(max 1 (min 6 n)).toNat - 1, ?_⟩
      omega
    obtain ⟨k, hk⟩ := h2
    refine ⟨List.replicate k '#', ?_⟩
    rw [clampLevel, repeatHash, hk]
    rfl

theorem splitOnChar_ne_nil (sep : Char) : ∀ s : Str, splitOnChar sep s ≠ [] := by
  intro s
  induction s with
  | nil => simp [splitOnChar]
  | cons c rest ih =>
    rw [splitOnChar]
    by_cases h : c = sep
    · simp [h]
    · simp only [if_neg h]
      cases hr : splitOnChar sep rest with
      | nil => simp
      | cons l ls => simp

theorem quoteLine_head (l : Str) : ∃ r, quoteLine l = '>' :: r := by
  rw [quoteLine]
  by_cases h : jsTrim l ≠ [] <;> simp [h]

theorem joinWith_head (sep : Str) (x : Str) (xs : List Str) (c : Char) (r : Str)
    (hx : x = c :: r) : ∃ r2, joinWith sep (x :: xs) = c :: r2 := by
  cases xs with
  | nil => exact ⟨r, by rw [joinWith, hx]⟩
  | cons y ys =>
    refine ⟨r ++ sep ++ joinWith sep (y :: ys), ?_⟩
    rw [joinWith.eq_def]
    rw [hx]
    simp

theorem listItemsMd_unordered_head :
    ∀ (cs : List XNode) (i : Nat),
      (∃ n ∈ cs, n.isElem = true ∧ n.tagOf = "item".data) →
      ∃ ls r, listItemsMd false i cs = ('-' :: r) :: ls := by
  intro cs
  induction cs with
  | nil => intro i h; obtain ⟨n, hn, _⟩ := h; exact absurd hn (by simp)
  | cons n rest ih =>
    intro i h
    cases n with
    | text s =>
      obtain ⟨m, hm, hme, hmt⟩ := h
      rcases List.mem_cons.1 hm with rfl | hm2
      · exact absurd hme (by simp [XNode.isElem])
      · rw [listItemsMd]
        exact ih i ⟨m, hm2, hme, hmt⟩
    | elem t a ics =>
      by_cases ht : t = "item".data
      · subst ht
        rw [listItemsMd]
        simp only [if_pos rfl]
        exact ⟨_, _, rfl⟩
      · obtain ⟨m, hm, hme, hmt⟩ := h
        rcases List.mem_cons.1 hm with rfl | hm2
        · exact absurd hmt (by simpa [XNode.tagOf] using ht)
        · rw [listItemsMd]
          simp only [if_neg ht]
          exact ih i ⟨m, hm2, hme, hmt⟩

theorem nebulaXml_success_form :
    ∀ s : Str, (nebulaXmlToMarkdown s).error = none →
      ∃ core, (nebulaXmlToMarkdown s).markdown = core ++ ['\n']
        ∧ (∀ c, core.head? = some c → isJsWs c = false)
        ∧ (∀ c, core.getLast? = some c → isJsWs c = false) := by
  intro s herr
  rcases hp : parseXmlDoc s with _ | root
  · simp [nebulaXmlToMarkdown, hp] at herr
  · by_cases htag : root.tagOf = "nebula".data
    · rcases hq : qselList "document".data root.childrenOf with _ | docNode
      · simp [nebulaXmlToMarkdown, hp, htag, hq] at herr
      · refine ⟨jsTrim (joinWith "\n\n".data
          ((docNode.childrenOf.filter XNode.isElem).map (fun c => jsTrimEnd (blockToMd c)))),
          ?_, fun c hc => jsTrim_head_not_ws _ _ hc,
          fun c hc => jsTrim_getLast_not_ws _ _ hc⟩
        simp [nebulaXmlToMarkdown, hp, htag, hq]
    · simp [nebulaXmlToMarkdown, hp, htag] at herr

theorem blockquote_head (attrs : List (Str × Str)) (cs : List XNode) :
    ∃ r, blockToMd (.elem "blockquote".data attrs cs) = '>' :: r := by
  simp only [blockToMd]
  norm_num
  rcases hsp : splitOnChar '\n' (joinWith "\n".data (blockFrags cs)) with _ | ⟨l0, ls⟩
  · exact absurd hsp (splitOnChar_ne_nil '\n' _)
  · obtain ⟨r0, hq0⟩ := quoteLine_head l0
    obtain ⟨r2, hj⟩ := joinWith_head "\n".data (quoteLine l0) (ls.map quoteLine) '>' r0 hq0
    rw [List.map_cons, hj]
    exact ⟨r2 ++ "\n".data, rfl⟩

theorem table_head (attrs : List (Str × Str)) (cs : List XNode)
    (h : cs.filter (fun c => c.isElem && decide (c.tagOf = "row".data)) ≠ []) :
    ∃ r, blockToMd (.elem "table".data attrs cs) = '\n' :: '|' :: r := by
  simp only [blockToMd]
  norm_num
  rcases hrows : cs.filter (fun c => c.isElem && decide (c.tagOf = "row".data))
    with _ | ⟨r0, rs⟩
  · exact absurd hrows h
  · rw [hrows, List.map_cons]
    exact ⟨_, rfl⟩

theorem heading_head (attrs : List (Str × Str)) (cs : List XNode) (c : Char)
    (h : (blockToMd (.elem "heading".data attrs cs)).head? = some c) :
    c = '#' ∨ c = ' ' := by
  simp only [blockToMd] at h
  norm_num at h
  rcases repeatHash_clamp_shape (jsParseInt
      (match attrOf attrs "level".data with
        | none => "1".data
        | some v => if v = [] then "1".data else v)) with hr | ⟨r, hr⟩ <;>
    rw [hr] at h <;> simp at h
  · right; exact h.symm
  · left; exact h.symm

theorem paragraph_head (attrs : List (Str × Str)) (cs : List XNode) :
    blockToMd (.elem "paragraph".data attrs cs) = ['\n']
    ∨ ∀ c, (blockToMd (.elem "paragraph".data attrs cs)).head? = some c →
        isJsWs c = false := by
  rcases ht : jsTrim (inlineListToMd cs) with _ | ⟨c0, r⟩
  · left; simp [blockToMd, ht]
  · right
    intro c hc
    simp only [blockToMd] at hc
    norm_num at hc
    rw [ht] at hc
    simp at hc
    subst hc
    exact jsTrim_head_not_ws (inlineListToMd cs) c0 (by rw [ht]; rfl)

theorem image_head (attrs : List (Str × Str)) (cs : List XNode) (v : Str)
    (hsrc : attrOf attrs "src".data = some v) (hv : v ≠ []) :
    ∃ r, blockToMd (.elem "image".data attrs cs) = '!' :: r := by
  simp [blockToMd, hsrc, hv]

theorem list_head (attrs : List (Str × Str)) (cs : List XNode)
    (hord : ((attrOf attrs "ordered".data).getD "false".data) ≠ "true".data)
    (hitem : ∃ n ∈ cs, n.isElem = true ∧ n.tagOf = "item".data) :
    ∃ r, blockToMd (.elem "list".data attrs cs) = '-' :: r := by
  simp [blockToMd, hord]
  obtain ⟨ls, r, hl⟩ := listItemsMd_unordered_head cs 1 hitem
  rw [hl]
  obtain ⟨r2, hj⟩ := joinWith_head ['\n'] ('-' :: r) ls '-' r rfl
  rw [hj]
  exact ⟨r2 ++ ['\n'], rfl⟩

-- ---------- Claim theorems ----------

set_option maxRecDepth 16000

/-- C2: the pure string pretty-printer `xmlPretty` is NOT idempotent on
valid canonical NebulaXML.  On the canonical document below (well formed,
`<nebula>` root, `meta` and `document` children) the second application
collapses every nesting level beyond the first to a single indent, because
the line-classification regexes of `xmlPretty` are applied to the raw line
(which now carries leading padding) while emission uses the trimmed line.
The theorem evaluates the code at the failing input: it exhibits the first
and second pretty-print and shows they differ. -/
theorem xmlPretty_double_apply_differs :
    (nebulaXmlToMarkdown "<nebula version=\"1.0\"><meta><title>T</title><updatedAt>now</updatedAt></meta><document><paragraph>hello</paragraph></document></nebula>".data).error = none
    ∧ xmlPretty "<nebula version=\"1.0\"><meta><title>T</title><updatedAt>now</updatedAt></meta><document><paragraph>hello</paragraph></document></nebula>".data
      = "<nebula version=\"1.0\">\n  <meta>\n    <title>T</title>\n    <updatedAt>now</updatedAt>\n  </meta>\n  <document>\n    <paragraph>hello</paragraph>\n  </document>\n</nebula>".data
    ∧ xmlPretty (xmlPretty "<nebula version=\"1.0\"><meta><title>T</title><updatedAt>now</updatedAt></meta><document><paragraph>hello</paragraph></document></nebula>".data)
      = "<nebula version=\"1.0\">\n  <meta>\n  <title>T</title>\n  <updatedAt>now</updatedAt>\n  </meta>\n  <document>\n  <paragraph>hello</paragraph>\n  </document>\n</nebula>".data
    ∧ xmlPretty (xmlPretty "<nebula version=\"1.0\"><meta><title>T</title><updatedAt>now</updatedAt></meta><document><paragraph>hello</paragraph></document></nebula>".data)
      ≠ xmlPretty "<nebula version=\"1.0\"><meta><title>T</title><updatedAt>now</updatedAt></meta><document><paragraph>hello</paragraph></document></nebula>".data := by
  refine ⟨by decide, by decide, by decide, by decide⟩

/-- C3 (counterexample): the claim's step (3) — "a well-formed document
whose root is the canonical root and that has no `document` CHILD yields
MissingBody" — is false: the parser uses `querySelector`, a descendant
search, so `<nebula><meta><document/></meta></nebula>`, whose root has no
`document` child (its only child is `meta`), is nevertheless accepted with
no error. -/
theorem nebulaXml_missing_body_child_cx :
    parseXmlDoc "<nebula><meta><document/></meta></nebula>".data
      = some (.elem "nebula".data []
          [.elem "meta".data [] [.elem "document".data [] []]])
    ∧ ([XNode.elem "meta".data [] [.elem "document".data [] []]].all
        (fun c => decide (c.tagOf ≠ "document".data))) = true
    ∧ (nebulaXmlToMarkdown "<nebula><meta><document/></meta></nebula>".data).error = none := by
  refine ⟨by decide, by decide, by decide⟩

/-- C3 (amended): `nebulaXmlToMarkdown` validates in order — (1) malformed
XML yields the `Malformed` error text; (2) a well-formed document whose root
is not `nebula` yields the `InvalidRoot` error text; (3) a well-formed
`nebula` document with no `document` DESCENDANT (the source uses
`querySelector`, a descendant search, not a child check) yields the
`MissingBody` error text; and the three sample inputs of the claim behave
exactly as stated. -/
theorem nebulaXml_validation_order :
    (∀ s, parseXmlDoc s = none →
        nebulaXmlToMarkdown s = ⟨[], some "XML parse error".data⟩)
    ∧ (∀ s root, parseXmlDoc s = some root → root.tagOf ≠ "nebula".data →
        nebulaXmlToMarkdown s = ⟨[], some "Root element must be <nebula>".data⟩)
    ∧ (∀ s root, parseXmlDoc s = some root → root.tagOf = "nebula".data →
        qselList "document".data root.childrenOf = none →
        nebulaXmlToMarkdown s = ⟨[], some "Missing <document>".data⟩)
    ∧ nebulaXmlToMarkdown "<notnebula><document/></notnebula>".data
        = ⟨[], some "Root element must be <nebula>".data⟩
    ∧ nebulaXmlToMarkdown "<nebula><meta/></nebula>".data
        = ⟨[], some "Missing <document>".data⟩
    ∧ nebulaXmlToMarkdown "<nebula><<<".data = ⟨[], some "XML parse error".data⟩ := by
  refine ⟨?_, ?_, ?_, by decide, by decide, by decide⟩
  · intro s h
    simp [nebulaXmlToMarkdown, h]
  · intro s root h hn
    simp [nebulaXmlToMarkdown, h, hn]
  · intro s root h ht hq
    simp [nebulaXmlToMarkdown, h, ht, hq]

/-- Witness for `nebulaXml_validation_order`: the InvalidRoot step applied
at the concrete well-formed input `<zzz/>`. -/
theorem nebulaXml_validation_order_witness :
    nebulaXmlToMarkdown "<zzz/>".data
      = ⟨[], some "Root element must be <nebula>".data⟩ :=
  nebulaXml_validation_order.2.1 "<zzz/>".data (.elem "zzz".data [] [])
    (by decide) (by decide)

/-- C4: atomicity on parse failure.  When `nebulaXmlToMarkdown` reports an
error, the XML-editor `onChange` handler only records the typed text and the
error — the authoring markdown and the dirty flag are untouched — and
`importFile` only records the error and the prettified imported text; the
markdown is replaced (and the document marked dirty) exactly when the parse
succeeds. -/
theorem parse_failure_preserves_markdown :
    (∀ st val e, (nebulaXmlToMarkdown val).error = some e →
        onXmlEditorChange st val = { st with xml := val, xmlError := some e })
    ∧ (∀ st val, (nebulaXmlToMarkdown val).error = none →
        onXmlEditorChange st val
          = { markdown := (nebulaXmlToMarkdown val).markdown, xml := val,
              xmlError := none, dirty := true })
    ∧ (∀ st name text e,
        (strEnds ".xml".data (lowerStr name)
          || strContains (lowerStr name) "nebula".data) = true →
        (nebulaXmlToMarkdown text).error = some e →
        importFileModel st name text
          = { st with xmlError := some e, xml := xmlPretty text })
    ∧ (∀ st name text,
        (strEnds ".xml".data (lowerStr name)
          || strContains (lowerStr name) "nebula".data) = true →
        (nebulaXmlToMarkdown text).error = none →
        importFileModel st name text
          = { st with markdown := (nebulaXmlToMarkdown text).markdown, dirty := true }) := by
  refine ⟨?_, ?_, ?_, ?_⟩
  · intro st val e h
    simp [onXmlEditorChange, h]
  · intro st val h
    simp [onXmlEditorChange, h]
  · intro st name text e hr h
    simp [importFileModel, hr, h]
  · intro st name text hr h
    simp [importFileModel, hr, h]

/-- Witness for `parse_failure_preserves_markdown`: a failed edit of the XML
view (`<<<` is malformed) leaves the markdown `"m"` and the dirty flag
untouched. -/
theorem parse_failure_preserves_markdown_witness :
    onXmlEditorChange ⟨"m".data, "x".data, none, false⟩ "<<<".data
      = { markdown := "m".data, xml := "<<<".data,
          xmlError := some "XML parse error".data, dirty := false } :=
  parse_failure_preserves_markdown.1 ⟨"m".data, "x".data, none, false⟩
    "<<<".data "XML parse error".data (by decide)

/-- C5 (counterexample): the emitted markdown does NOT have exactly one
blank line between every pair of consecutive top-level blocks.  For a
paragraph followed by a code block, the code-block fragment keeps its two
leading newlines through the per-block `trimEnd`, so the `"\n\n"` join
leaves three blank lines before the fence — the output differs from the
fully-trimmed fragments joined by one blank line. -/
theorem emitter_one_blank_line_cx :
    docBlocksOf "<nebula><document><paragraph>a</paragraph><codeBlock lang=\"\">x</codeBlock></document></nebula>".data
      = some [.elem "paragraph".data [] [.text "a".data],
              .elem "codeBlock".data [("lang".data, [])] [.text "x".data]]
    ∧ (nebulaXmlToMarkdown "<nebula><document><paragraph>a</paragraph><codeBlock lang=\"\">x</codeBlock></document></nebula>".data).markdown
      = "a\n\n\n\n```\nx\n```\n".data
    ∧ (nebulaXmlToMarkdown "<nebula><document><paragraph>a</paragraph><codeBlock lang=\"\">x</codeBlock></document></nebula>".data).markdown
      ≠ joinWith "\n\n".data
          ([XNode.elem "paragraph".data [] [.text "a".data],
            XNode.elem "codeBlock".data [("lang".data, [])] [.text "x".data]].map
            (fun b => jsTrim (blockToMd b))) ++ "\n".data := by
  refine ⟨by decide, by decide, by decide⟩

/-- C8 (counterexample): a text range already wrapped by an earlier
annotation IS reconsidered by later annotations.  On the render text
`"world world"`, two annotations with the same quote `"world"` both wrap the
FIRST occurrence — the second marker is nested inside the first — instead of
claiming two distinct occurrences. -/
theorem annotator_reconsiders_claimed_cx :
    applyHighlights (.elem "div".data [] [.text "world world".data])
        [⟨"a".data, "world".data, [], []⟩, ⟨"b".data, "world".data, [], []⟩]
      = .elem "div".data []
          [.elem "span".data
            [("data-nebula-comment".data, "a".data), ("class".data, highlightClass)]
            [mkMarkerSpan "b".data "world".data],
           .text " world".data]
    ∧ (XNode.elem "div".data []
          [.elem "span".data
            [("data-nebula-comment".data, "a".data), ("class".data, highlightClass)]
            [mkMarkerSpan "b".data "world".data],
           .text " world".data])
      ≠ .elem "div".data []
          [mkMarkerSpan "a".data "world".data, .text " ".data,
           mkMarkerSpan "b".data "world".data] := by
  refine ⟨by decide, by decide⟩

/-- C9 (counterexample): the replace term is NOT treated as a literal
string: JS `String.replace` expands `$` patterns in the replacement, so
replacing `"a"` by `"$$"` in `"a"` yields `"$"`, not the literal `"$$"`. -/
theorem replaceAll_dollar_cx :
    runReplaceAll "a".data "a".data "$$".data false = "$".data
    ∧ literalReplaceAll "a".data "a".data "$$".data false = "$$".data
    ∧ runReplaceAll "a".data "a".data "$$".data false
        ≠ literalReplaceAll "a".data "a".data "$$".data false := by
  refine ⟨by decide, by decide, by decide⟩

/-- C6: heading level clamp.  For every heading element whose `level`
attribute is present, nonempty and parses as an integer `n`, the emitted
heading carries exactly `clamp(n, 1, 6)` leading `#` markers; in the full
pipeline `level="9"` emits six markers and `level="0"` emits one. -/
theorem heading_level_clamp :
    (∀ (attrs : List (Str × Str)) (cs : List XNode) (v : Str) (n : Int),
        attrOf attrs "level".data = some v → v ≠ [] → jsParseInt v = some n →
        blockToMd (.elem "heading".data attrs cs)
          = List.replicate (max 1 (min 6 n)).toNat '#'
            ++ ' ' :: (jsTrim (inlineListToMd cs) ++ ['\n']))
    ∧ (nebulaXmlToMarkdown "<nebula><document><heading level=\"9\">t</heading></document></nebula>".data).markdown
        = "###### t\n".data
    ∧ (nebulaXmlToMarkdown "<nebula><document><heading level=\"0\">t</heading></document></nebula>".data).markdown
        = "# t\n".data := by
  refine ⟨?_, by decide, by decide⟩
  intro attrs cs v n h1 h2 h3
  simp [blockToMd, h1, h2, h3, repeatHash, clampLevel]

/-- Witness for `heading_level_clamp`: the general clamp equation applied at
the concrete heading `<heading level="9">t</heading>`. -/
theorem heading_level_clamp_witness :
    blockToMd (.elem "heading".data [("level".data, "9".data)] [.text "t".data])
      = List.replicate (max 1 (min 6 (9 : Int))).toNat '#'
        ++ ' ' :: (jsTrim (inlineListToMd [.text "t".data]) ++ ['\n']) :=
  heading_level_clamp.1 [("level".data, "9".data)] [.text "t".data] "9".data 9
    (by decide) (by decide) (by decide)

/-- C10: when a heading's `level` attribute is present but does not parse as
an integer, `parseInt` yields `NaN`, the clamp propagates it, and the string
repetition yields the empty string: the emitted heading line carries zero
`#` markers (just the space and the inline content), so the `[1,6]` clamp
invariant is not enforced.  The concrete document with `level="abc"` emits
`"t\n"` with no `#` at all. -/
theorem nonnumeric_level_no_hashes :
    (∀ (attrs : List (Str × Str)) (cs : List XNode) (v : Str),
        attrOf attrs "level".data = some v → v ≠ [] → jsParseInt v = none →
        clampLevel (jsParseInt v) = none
        ∧ blockToMd (.elem "heading".data attrs cs)
            = ' ' :: (jsTrim (inlineListToMd cs) ++ ['\n']))
    ∧ (nebulaXmlToMarkdown "<nebula><document><heading level=\"abc\">t</heading></document></nebula>".data).markdown
        = "t\n".data
    ∧ '#' ∉ (nebulaXmlToMarkdown "<nebula><document><heading level=\"abc\">t</heading></document></nebula>".data).markdown := by
  refine ⟨?_, by decide, by decide⟩
  intro attrs cs v h1 h2 h3
  constructor
  · simp [h3, clampLevel]
  · simp [blockToMd, h1, h2, h3, repeatHash, clampLevel]

/-- Witness for `nonnumeric_level_no_hashes`: the general equation applied
at the concrete heading `<heading level="abc">t</heading>`. -/
theorem nonnumeric_level_no_hashes_witness :
    clampLevel (jsParseInt "abc".data) = none
    ∧ blockToMd (.elem "heading".data [("level".data, "abc".data)] [.text "t".data])
        = ' ' :: (jsTrim (inlineListToMd [.text "t".data]) ++ ['\n']) :=
  nonnumeric_level_no_hashes.1 [("level".data, "abc".data)] [.text "t".data]
    "abc".data (by decide) (by decide) (by decide)

/-- C9 (amended): replace-all rewrites the whole markdown in one step,
replacing every leftmost non-overlapping occurrence of the find term —
which IS treated as a literal substring (the source regex-escapes it),
case-insensitively unless the toggle is on — but the REPLACE term is
subject to JS replacement-pattern expansion rather than being literal:
whenever it contains no `$` it is inserted verbatim, and the `$&` sample
shows the expansion.  The concrete conjuncts exercise the case toggle. -/
theorem replaceAll_literal_find :
    (∀ md term repl cs, term ≠ [] → '$' ∉ repl →
        runReplaceAll md term repl cs = literalReplaceAll md term repl cs)
    ∧ runReplaceAll "Hello hello".data "hello".data "X".data false = "X X".data
    ∧ runReplaceAll "Hello hello".data "hello".data "X".data true = "Hello X".data
    ∧ runReplaceAll "abc".data "b".data "[$&]".data false = "a[b]c".data := by
  refine ⟨?_, by decide, by decide, by decide⟩
  intro md term repl cs ht hd
  rw [runReplaceAll, if_neg ht, jsReplaceAll, literalReplaceAll,
    replGo_eq_litGo _ _ _ _ hd]

/-- Witness for `replaceAll_literal_find`: a dollar-free replacement on a
concrete text behaves as a literal replacement. -/
theorem replaceAll_literal_find_witness :
    "a".data ≠ ([] : Str) ∧ '$' ∉ "b".data
    ∧ runReplaceAll "aa".data "a".data "b".data false
        = literalReplaceAll "aa".data "a".data "b".data false :=
  ⟨by decide, by decide,
    replaceAll_literal_find.1 "aa".data "a".data "b".data false
      (by decide) (by decide)⟩

/-- C7: annotation first-match and silent skip.  For every render tree and
every annotation whose (trimmed, nonempty) quote occurs inside some single
text node, one pass of the annotator wraps exactly the first occurrence in
the first such text node in depth-first text-node order: the text-node list
of the result splits that node into (nonempty) before / quote / (nonempty)
after pieces and leaves every other text node unchanged, the total text
content is preserved, exactly one new marker span carrying the annotation id
is added, and a marker span wrapping exactly the quote is present; the
within-node index is the least match position.  If no single text node
contains the quote, the tree is returned unchanged — skipped silently, not
an error. -/
theorem annotator_first_match :
    ∀ (tg : Str) (attrs : List (Str × Str)) (cs : List XNode) (c : NebulaComment),
      jsTrim c.quote ≠ [] →
      ((∀ s ∈ textsList cs, strContains s (jsTrim c.quote) = false) →
          applyOneComment (.elem tg attrs cs) c = .elem tg attrs cs)
      ∧ (∀ (pre : List Str) (s0 : Str) (post : List Str) (idx : Nat),
          textsList cs = pre ++ s0 :: post →
          (∀ s ∈ pre, strContains s (jsTrim c.quote) = false) →
          strIndexOf s0 (jsTrim c.quote) = some idx →
          textsList (applyOneComment (.elem tg attrs cs) c).childrenOf
            = pre ++ (optStr (s0.take idx) ++ [jsTrim c.quote]
              ++ optStr (s0.drop (idx + (jsTrim c.quote).length))) ++ post
          ∧ textContentOf (applyOneComment (.elem tg attrs cs) c)
              = textContentOf (.elem tg attrs cs)
          ∧ markerIdCountOf c.id (applyOneComment (.elem tg attrs cs) c)
              = markerIdCountOf c.id (.elem tg attrs cs) + 1
          ∧ hasSubNode (mkMarkerSpan c.id (jsTrim c.quote))
              (applyOneComment (.elem tg attrs cs) c) = true
          ∧ (∀ j < idx, strStarts (jsTrim c.quote) (s0.drop j) = false)) := by
  intro tg attrs cs c hq
  constructor
  · intro hnone
    have hnone' : ∀ s ∈ textsList cs, strIndexOf s (jsTrim c.quote) = none :=
      fun s hs => strContains_false_iff.1 (hnone s hs)
    have hw := wrapChildren_notfound (jsTrim c.quote) c cs hnone'
    rw [applyOneComment.eq_def, if_neg hq]
    dsimp only
    rw [hw]
  · intro pre s0 post idx hts hpre hidx
    have hpre' : ∀ s ∈ pre, strIndexOf s (jsTrim c.quote) = none :=
      fun s hs => strContains_false_iff.1 (hpre s hs)
    obtain ⟨hf, htx, htc, hmc, hsub⟩ :=
      wrapChildren_found (jsTrim c.quote) c cs pre s0 post idx hts hpre' hidx
    have hmatched : (s0.drop idx).take (jsTrim c.quote).length = jsTrim c.quote :=
      strStarts_take (strIndexOf_some hidx).1
    rw [hmatched] at htx hsub
    rw [applyOneComment.eq_def, if_neg hq]
    dsimp only
    rcases hww : wrapChildren (jsTrim c.quote) c cs false with ⟨cs2, d⟩
    rw [hww] at htx htc hmc hsub
    simp only at htx htc hmc hsub
    refine ⟨?_, ?_, ?_, ?_, (strIndexOf_some hidx).2⟩
    · simpa [XNode.childrenOf] using htx
    · simpa [textContentOf] using htc
    · simp only [markerIdCountOf, textContentOf]
      omega
    · simp [hasSubNode, hsub]

/-- Witness for `annotator_first_match`: on the render text
`"hello world"` with quote `"world"`, the annotator wraps exactly the
substring `"world"` (split at index 6) and adds one marker span. -/
theorem annotator_first_match_witness :
    jsTrim "world".data ≠ [] ∧
    strIndexOf "hello world".data (jsTrim "world".data) = some 6 ∧
    textsList (applyOneComment (.elem "div".data [] [.text "hello world".data])
        ⟨"i".data, "world".data, [], []⟩).childrenOf
      = [] ++ (optStr ("hello world".data.take 6) ++ [jsTrim "world".data]
        ++ optStr ("hello world".data.drop (6 + (jsTrim "world".data).length))) ++ [] ∧
    markerIdCountOf "i".data (applyOneComment (.elem "div".data [] [.text "hello world".data])
        ⟨"i".data, "world".data, [], []⟩)
      = markerIdCountOf "i".data (XNode.elem "div".data [] [.text "hello world".data]) + 1 := by
  have h := (annotator_first_match "div".data [] [.text "hello world".data]
      ⟨"i".data, "world".data, [], []⟩ (by decide)).2
      [] "hello world".data [] 6 (by decide) (by decide) (by decide)
  exact ⟨by decide, by decide, h.1, h.2.2.1⟩

/-- C8 (amended): in a single render pass each annotation claims at most
one match (the total number of marker spans grows by at most one per
annotation), but a text range already claimed by an earlier annotation IS
reconsidered by later annotations: on `"world world"`, two annotations with
the same quote `"world"` produce exactly two marker spans wrapping the SAME
first occurrence (nested), not two distinct occurrences, while the text
content is unchanged. -/
theorem annotator_at_most_one_match :
    (∀ (root : XNode) (c : NebulaComment),
        markerCountOf (applyOneComment root c) ≤ markerCountOf root + 1)
    ∧ markerCountOf (applyHighlights (.elem "div".data [] [.text "world world".data])
        [⟨"a".data, "world".data, [], []⟩, ⟨"b".data, "world".data, [], []⟩]) = 2
    ∧ textContentOf (applyHighlights (.elem "div".data [] [.text "world world".data])
        [⟨"a".data, "world".data, [], []⟩, ⟨"b".data, "world".data, [], []⟩])
      = "world world".data := by
  refine ⟨?_, by decide, by decide⟩
  intro root c
  rw [applyOneComment.eq_def]
  by_cases hq : jsTrim c.quote = []
  · simp [hq]
  · rw [if_neg hq]
    cases root with
    | text s => simp [markerCountOf]
    | elem t a cs =>
      dsimp only
      have h := wrapChildren_markerCount (jsTrim c.quote) c cs false
      rcases hw : wrapChildren (jsTrim c.quote) c cs false with ⟨cs2, d⟩
      rw [hw] at h
      simp only at h
      simp only [markerCountOf]
      cases d <;> simp_all <;> omega

/-- C5 (amended): for every valid canonical document the emitted markdown is
trimmed and terminated with exactly one trailing newline (it is a core with
no leading or trailing whitespace followed by a single `'\n'`).  Top-level
blocks are joined by one blank line EXCEPT that a code-block fragment starts
with exactly two extra newlines (three blank lines precede a non-initial
code block) and a table fragment with one extra newline (two blank lines
precede a non-initial table); every other block kind emits a fragment that
does not start with a newline (heading: `#` or space; nonempty paragraph:
non-whitespace; divider `---`; blockquote `>`; nonempty unordered list `-`;
image with a source `!`), so exactly one blank line separates them.  The
concrete document at the end shows all separators at once. -/
theorem emitter_output_shape :
    (∀ s : Str, (nebulaXmlToMarkdown s).error = none →
      ∃ core, (nebulaXmlToMarkdown s).markdown = core ++ ['\n']
        ∧ (∀ c, core.head? = some c → isJsWs c = false)
        ∧ (∀ c, core.getLast? = some c → isJsWs c = false))
    ∧ (∀ (attrs : List (Str × Str)) (cs : List XNode),
        ∃ r, blockToMd (.elem "codeBlock".data attrs cs) = '\n' :: '\n' :: '`' :: r)
    ∧ (∀ (attrs : List (Str × Str)) (cs : List XNode),
        cs.filter (fun c => c.isElem && decide (c.tagOf = "row".data)) ≠ [] →
        ∃ r, blockToMd (.elem "table".data attrs cs) = '\n' :: '|' :: r)
    ∧ (∀ (attrs : List (Str × Str)) (cs : List XNode) (c : Char),
        (blockToMd (.elem "heading".data attrs cs)).head? = some c → c = '#' ∨ c = ' ')
    ∧ (∀ (attrs : List (Str × Str)) (cs : List XNode),
        blockToMd (.elem "paragraph".data attrs cs) = ['\n']
        ∨ ∀ c, (blockToMd (.elem "paragraph".data attrs cs)).head? = some c →
            isJsWs c = false)
    ∧ (∀ (attrs : List (Str × Str)) (cs : List XNode),
        blockToMd (.elem "divider".data attrs cs) = "---\n".data)
    ∧ (∀ (attrs : List (Str × Str)) (cs : List XNode),
        ∃ r, blockToMd (.elem "blockquote".data attrs cs) = '>' :: r)
    ∧ (∀ (attrs : List (Str × Str)) (cs : List XNode),
        ((attrOf attrs "ordered".data).getD "false".data) ≠ "true".data →
        (∃ n ∈ cs, n.isElem = true ∧ n.tagOf = "item".data) →
        ∃ r, blockToMd (.elem "list".data attrs cs) = '-' :: r)
    ∧ (∀ (attrs : List (Str × Str)) (cs : List XNode) (v : Str),
        attrOf attrs "src".data = some v → v ≠ [] →
        ∃ r, blockToMd (.elem "image".data attrs cs) = '!' :: r)
    ∧ (nebulaXmlToMarkdown "<nebula><document><paragraph>a</paragraph><codeBlock lang=\"\">x</codeBlock><paragraph>b</paragraph><table><row><cell>c</cell></row></table><divider/></document></nebula>".data).markdown
        = "a\n\n\n\n```\nx\n```\n\nb\n\n\n| c |\n| --- |\n\n---\n".data := by
  refine ⟨nebulaXml_success_form, ?_, table_head, heading_head, paragraph_head, ?_,
    blockquote_head, list_head, image_head, by decide⟩
  · intro attrs cs
    simp [blockToMd]
  · intro attrs cs
    simp [blockToMd]

/-- Witness for `emitter_output_shape`: the trimmed/one-trailing-newline
shape applied at a concrete valid document. -/
theorem emitter_output_shape_witness :
    (nebulaXmlToMarkdown "<nebula><document><paragraph>hi</paragraph></document></nebula>".data).error = none
    ∧ ∃ core,
        (nebulaXmlToMarkdown "<nebula><document><paragraph>hi</paragraph></document></nebula>".data).markdown
          = core ++ ['\n']
        ∧ (∀ c, core.head? = some c → isJsWs c = false)
        ∧ (∀ c, core.getLast? = some c → isJsWs c = false) :=
  ⟨by decide, emitter_output_shape.1
    "<nebula><document><paragraph>hi</paragraph></document></nebula>".data (by decide)⟩
